import Mathlib

/-!
# Verification of `blockchain.js`

A shallow embedding of the JavaScript blockchain implementation:
`Transaction`, `Block` (with SHA-256 hashing and proof-of-work mining) and
`Blockchain` (pending pool, block production, validation, balances).

Modelling conventions:
* The SHA-256 digest function is an abstract parameter `hashFn : String → String`;
  the string fed to it is built exactly as in `Block.calculateHash`
  (`index.toString() + timestamp.toString() + JSON.stringify(transactions)
   + previousHash + nonce.toString()`).
* JavaScript numbers that the program uses as integers (indices, timestamps,
  nonces, amounts) are modelled as `Nat`/`Int`; their JS string form is the
  decimal representation (`jsNatRepr` / `jsIntRepr`).
* `Date.now()` is an explicit clock argument to every operation that reads it.
* The unbounded `while` loop of `mineBlock` is given explicit fuel; a call
  that returns in JS corresponds to a `some` result.
* Addresses (`sender`, `recipient`) are `Option String`, `none` being JS `null`.
  JS truthiness of such a value (`!tx.sender`) is the `truthy` predicate:
  both `null` and the empty string are falsy.
* A thrown exception is modelled by returning the error message next to the
  unchanged state.
-/

/-- Decimal digit characters of `n`, least significant first, computed with
structural fuel so that the kernel can evaluate it (`fuel ≥ n` suffices). -/
def jsNatReprAux : Nat → Nat → List Char
  | 0, _ => []
  | _ + 1, 0 => []
  | fuel + 1, n + 1 => Nat.digitChar ((n + 1) % 10) :: jsNatReprAux fuel ((n + 1) / 10)

/-- The string JavaScript produces for a non-negative integer
(`String(n)` / `n.toString()`): decimal, most significant digit first. -/
def jsNatRepr (n : Nat) : String :=
  if n = 0 then "0" else String.mk (jsNatReprAux n n).reverse

/-- The string JavaScript produces for an integer, with a leading minus sign
when negative. -/
def jsIntRepr (i : Int) : String :=
  if i < 0 then "-" ++ jsNatRepr i.natAbs else jsNatRepr i.natAbs

/-- `class Transaction`: sender, recipient, amount and the `Date.now()`
timestamp assigned at construction.  `none` models JS `null`. -/
structure Transaction where
  sender : Option String
  recipient : Option String
  amount : Int
  timestamp : Nat
deriving DecidableEq, Repr

/-- `JSON.stringify` of a string-or-null field value. -/
def jsonOptStr : Option String → String
  | none => "null"
  | some s => "\"" ++ s ++ "\""

/-- `JSON.stringify` of one `Transaction` object, fields in declaration
order as V8 serialises them. -/
def jsonTx (t : Transaction) : String :=
  "\x7b\"sender\":" ++ jsonOptStr t.sender ++
    ",\"recipient\":" ++ jsonOptStr t.recipient ++
    ",\"amount\":" ++ jsIntRepr t.amount ++
    ",\"timestamp\":" ++ jsNatRepr t.timestamp ++ "\x7d"

/-- Comma-separated concatenation, as in JS array serialisation. -/
def joinComma : List String → String
  | [] => ""
  | [s] => s
  | s :: rest => s ++ "," ++ joinComma rest

/-- `JSON.stringify` of the transaction array. -/
def jsonTxs (ts : List Transaction) : String :=
  "[" ++ joinComma (ts.map jsonTx) ++ "]"

/-- `class Block`: index, timestamp, ordered transactions, link to the
predecessor, mining nonce and the stored digest. -/
structure Block where
  index : Nat
  timestamp : Nat
  transactions : List Transaction
  previousHash : String
  nonce : Nat
  hash : String
deriving DecidableEq, Repr

/-- The exact string `calculateHash` feeds to SHA-256. -/
def hashInputFields (index timestamp : Nat) (transactions : List Transaction)
    (previousHash : String) (nonce : Nat) : String :=
  jsNatRepr index ++ jsNatRepr timestamp ++ jsonTxs transactions ++
    previousHash ++ jsNatRepr nonce

/-- `Block.calculateHash()`: digest of the block's current field values
(the stored `hash` field itself is not part of the input). -/
def Block.calculateHash (hashFn : String → String) (b : Block) : String :=
  hashFn (hashInputFields b.index b.timestamp b.transactions b.previousHash b.nonce)

/-- The `Block` constructor: `nonce = 0` and `hash = this.calculateHash()`. -/
def Block.new (hashFn : String → String) (index timestamp : Nat)
    (transactions : List Transaction) (previousHash : String) : Block :=
  { index := index, timestamp := timestamp, transactions := transactions,
    previousHash := previousHash, nonce := 0,
    hash := hashFn (hashInputFields index timestamp transactions previousHash 0) }

/-- `'0'.repeat(difficulty)`, the prefix a mined hash must carry. -/
def mineTarget (difficulty : Nat) : String :=
  String.mk (List.replicate difficulty '0')

/-- `Block.mineBlock(difficulty)`: while the first `difficulty` characters of
`hash` are not all `'0'`, increment `nonce` and recompute `hash`.  The JS
loop is unbounded; `fuel` bounds the number of iterations we model, and a
JS call that returns corresponds to a `some` result. -/
def Block.mineLoop (hashFn : String → String) (difficulty : Nat) :
    Nat → Block → Option Block
  | 0, b => if b.hash.take difficulty = mineTarget difficulty then some b else none
  | fuel + 1, b =>
    if b.hash.take difficulty = mineTarget difficulty then some b
    else
      Block.mineLoop hashFn difficulty fuel
        (let b2 : Block := { b with nonce := b.nonce + 1 }
         { b2 with hash := b2.calculateHash hashFn })

/-- `class Blockchain`: the chain, the proof-of-work difficulty, the pending
pool and the mining reward. -/
structure Blockchain where
  chain : List Block
  difficulty : Nat
  pendingTransactions : List Transaction
  miningReward : Int
deriving DecidableEq, Repr

/-- The `Blockchain` constructor: a single genesis block
(`new Block(0, Date.now(), [], '0')`), difficulty 4, empty pool, reward 100. -/
def Blockchain.new (hashFn : String → String) (now : Nat) : Blockchain :=
  { chain := [Block.new hashFn 0 now [] "0"], difficulty := 4,
    pendingTransactions := [], miningReward := 100 }

/-- JavaScript truthiness of an address value: `null` and `""` are falsy. -/
def truthy : Option String → Bool
  | none => false
  | some s => !(s == "")

/-- `Blockchain.addTransaction(tx)`: throw unless sender and recipient are
truthy and the amount is positive, otherwise push onto the pool.  The first
component is the thrown error message (`none` on success); the second is the
resulting state (unchanged when the guard throws, since the throw happens
before the push). -/
def Blockchain.addTransaction (bc : Blockchain) (tx : Transaction) :
    Option String × Blockchain :=
  if !truthy tx.sender || !truthy tx.recipient || decide (tx.amount ≤ 0) then
    (some "Invalid transaction: must have sender, recipient, and positive amount", bc)
  else
    (none, { bc with pendingTransactions := bc.pendingTransactions ++ [tx] })

/-- `Blockchain.getLastBlock()`: `chain[chain.length - 1]`, `none` modelling
the `undefined` an empty chain would produce. -/
def Blockchain.getLastBlock (bc : Blockchain) : Option Block :=
  bc.chain.getLast?

/-- `Blockchain.minePendingTransactions(minerAddress)`: build a candidate
block from the whole pending pool, mine it, append it, and reset the pool to
the single reward transaction `(null, minerAddress, miningReward)`.
`nowBlock`/`nowReward` are the two `Date.now()` reads; `none` means the JS
call did not return (mining ran past `fuel`, or the chain was empty). -/
def Blockchain.minePendingTransactions (bc : Blockchain) (hashFn : String → String)
    (fuel nowBlock nowReward : Nat) (minerAddress : String) : Option Blockchain :=
  match bc.getLastBlock with
  | none => none
  | some last =>
    match Block.mineLoop hashFn bc.difficulty fuel
        (Block.new hashFn bc.chain.length nowBlock bc.pendingTransactions last.hash) with
    | none => none
    | some mined =>
      some { bc with
        chain := bc.chain ++ [mined],
        pendingTransactions :=
          [{ sender := none, recipient := some minerAddress,
             amount := bc.miningReward, timestamp := nowReward }] }

/-- The two failure messages `validateChain` can log, with the block index. -/
inductive CorruptReason where
  | hashMismatch
  | brokenLink
deriving DecidableEq, Repr

/-- The `for` loop of `Blockchain.validateChain()` as a state-threading
function: at index `i` with `rem` iterations left it reads `chain[i]` and
`chain[i-1]` from the state, returns the logged failure on a mismatch, and
passes the state along untouched (the loop body contains no assignment). -/
def validateLoop (hashFn : String → String) :
    Nat → Nat → Blockchain → Option (Nat × CorruptReason) × Blockchain
  | _, 0, st => (none, st)
  | i, rem + 1, st =>
    match st.chain[i]?, st.chain[i - 1]? with
    | some current, some previous =>
      if current.hash ≠ current.calculateHash hashFn then (some (i, .hashMismatch), st)
      else if current.previousHash ≠ previous.hash then (some (i, .brokenLink), st)
      else validateLoop hashFn (i + 1) rem st
    | _, _ => (none, st)

/-- `Blockchain.validateChain()` as a state transformer: run the loop from
index 1 over the remaining `chain.length - 1` blocks; the Boolean is the
return value, the second component the state after the call. -/
def Blockchain.validateChainOp (bc : Blockchain) (hashFn : String → String) :
    Bool × Blockchain :=
  ((validateLoop hashFn 1 (bc.chain.length - 1) bc).1.isNone,
   (validateLoop hashFn 1 (bc.chain.length - 1) bc).2)

/-- The failure `validateChain` reports (block index and reason), `none`
when the chain validates. -/
def Blockchain.validateResult (bc : Blockchain) (hashFn : String → String) :
    Option (Nat × CorruptReason) :=
  (validateLoop hashFn 1 (bc.chain.length - 1) bc).1

/-- The Boolean result of `Blockchain.validateChain()`. -/
def Blockchain.validateChain (bc : Blockchain) (hashFn : String → String) : Bool :=
  (bc.validateResult hashFn).isNone

/-- `Blockchain.getBalance(address)`: replay every transaction of every
block, subtracting when `sender === address` and adding when
`recipient === address`. -/
def Blockchain.getBalance (bc : Blockchain) (address : Option String) : Int :=
  bc.chain.foldl
    (fun balance block =>
      block.transactions.foldl
        (fun balance tx =>
          let balance := if tx.sender = address then balance - tx.amount else balance
          if tx.recipient = address then balance + tx.amount else balance)
        balance)
    0

/-- Ledger states reachable from `new Blockchain()` through the public
mutating operations (`validateChain` and `getBalance` do not change state;
`validateChainOp_frame` below proves this for `validateChain`). -/
inductive Reachable (hashFn : String → String) : Blockchain → Prop where
  | init (now : Nat) : Reachable hashFn (Blockchain.new hashFn now)
  | addTx {bc bc' : Blockchain} (tx : Transaction) :
      Reachable hashFn bc → bc.addTransaction tx = (none, bc') →
      Reachable hashFn bc'
  | mine {bc bc' : Blockchain} (fuel nowBlock nowReward : Nat) (minerAddress : String) :
      Reachable hashFn bc →
      bc.minePendingTransactions hashFn fuel nowBlock nowReward minerAddress = some bc' →
      Reachable hashFn bc'

/-- Reference form of the validation loop, recursing over the list of blocks
after genesis: `prev` is the predecessor of the first block of `l`, which
sits at chain index `i`.  `validateLoop_eq_scanChain` proves it equal to the
indexed loop. -/
def scanChain (hashFn : String → String) : Block → List Block → Nat →
    Option (Nat × CorruptReason)
  | _, [], _ => none
  | prev, cur :: rest, i =>
    if cur.hash ≠ cur.calculateHash hashFn then some (i, .hashMismatch)
    else if cur.previousHash ≠ prev.hash then some (i, .brokenLink)
    else scanChain hashFn cur rest (i + 1)

/-- `scanChain` run the way `validateChain` runs it: from block 1, with the
genesis block as first predecessor. -/
def scanResult (hashFn : String → String) (bc : Blockchain) :
    Option (Nat × CorruptReason) :=
  match bc.chain with
  | [] => none
  | g :: rest => scanChain hashFn g rest 1

/-- Net effect of one transaction on the balance of `address`. -/
def txContribution (address : Option String) (t : Transaction) : Int :=
  (if t.recipient = address then t.amount else 0) -
    (if t.sender = address then t.amount else 0)

/-- Replace the amount of transaction `j` of block `i`, leaving every other
field — in particular the stored block hash — untouched (the tampering
scenario of the demo). -/
def Blockchain.setTxAmount (bc : Blockchain) (i j : Nat) (a : Int) : Blockchain :=
  { bc with chain :=
      match bc.chain[i]? with
      | none => bc.chain
      | some b =>
        match b.transactions[j]? with
        | none => bc.chain
        | some t =>
          bc.chain.set i { b with transactions := b.transactions.set j { t with amount := a } } }

/-- One iteration of the mining loop body: `this.nonce++; this.hash =
this.calculateHash();`. -/
def mineStep (hashFn : String → String) (b : Block) : Block :=
  let b2 : Block := { b with nonce := b.nonce + 1 }
  { b2 with hash := b2.calculateHash hashFn }

/-- Nonce `n` makes the digest of `b`'s other fields meet the difficulty. -/
def nonceOk (hashFn : String → String) (difficulty : Nat) (b : Block) (n : Nat) : Prop :=
  (Block.calculateHash hashFn { b with nonce := n }).take difficulty = mineTarget difficulty

instance (hashFn : String → String) (difficulty : Nat) (b : Block) (n : Nat) :
    Decidable (nonceOk hashFn difficulty b n) := by
  unfold nonceOk
  infer_instance

/-- Constant digest function, a degenerate but legitimate instantiation of
the abstract SHA-256 parameter, used for concrete test states. -/
def constHash (s : String) : String → String := fun _ => s

/-! Concrete states used in witnesses and counterexamples. -/

/-- A genesis block hashed with the identity digest function. -/
def gWit : Block := Block.new id 0 0 [] "0"

def txWit : Transaction := ⟨some "Alice", some "Bob", 50, 3⟩

/-- A properly constructed block holding one transaction. -/
def blockWit : Block := Block.new id 1 2 [txWit] gWit.hash

/-- A two-block chain that validates under the identity digest function. -/
def bcValidWit : Blockchain := ⟨[gWit, blockWit], 4, [], 100⟩

/-- A constructed block whose transaction list was mutated afterwards,
leaving the stored hash stale (the demo's tampering scenario). -/
def tamperedWit : Block := { gWit with transactions := [txWit] }

/-- A block whose stored hash was overwritten with garbage. -/
def badBlockWit : Block := { Block.new id 1 0 [] gWit.hash with hash := "bad" }

/-- A chain failing validation at index 1, with a further block behind it. -/
def bcBadWit : Blockchain := ⟨[gWit, badBlockWit, gWit], 4, [], 100⟩

/-- A fresh ledger under the constant digest `"0000"` (difficulty 4 is met
immediately, so mining needs no fuel). -/
def bcMineA : Blockchain := Blockchain.new (constHash "0000") 0

/-- The reward transaction created by mining `bcMineA` for `"M"`. -/
def rewardM : Transaction := ⟨none, some "M", 100, 2⟩

/-- `bcMineA` after `minePendingTransactions(hash, fuel 0, now 1, now 2, "M")`. -/
def bcMineB : Blockchain :=
  ⟨[Block.new (constHash "0000") 0 0 [] "0", Block.new (constHash "0000") 1 1 [] "0000"],
   4, [rewardM], 100⟩

/-- The block that seals the reward of the first mining call. -/
def minedRewardBlock : Block := Block.new (constHash "0000") 2 3 [rewardM] "0000"

/-- `bcMineB` after a second `minePendingTransactions` call for `"M2"`. -/
def bcMineC : Blockchain :=
  ⟨[Block.new (constHash "0000") 0 0 [] "0", Block.new (constHash "0000") 1 1 [] "0000",
    minedRewardBlock], 4, [⟨none, some "M2", 100, 4⟩], 100⟩

/-- A transaction whose sender is the empty string: JS truthiness rejects it
even though the sender is not `null`. -/
def txEmptySender : Transaction := ⟨some "", some "Bob", 5, 0⟩

/-- A fresh ledger under the constant digest `"h"`. -/
def bcPlain : Blockchain := Blockchain.new (constHash "h") 0

def txPlain : Transaction := ⟨some "Alice", some "Bob", 7, 9⟩

/-- A freshly constructed block whose digest already meets difficulty 4
under the constant digest function. -/
def minedWit : Block := Block.new (constHash "0000") 5 7 [] "prev"

/-! ## Decimal representation lemmas -/

theorem jsNatReprAux_eq_digits : ∀ fuel n, n ≤ fuel →
    jsNatReprAux fuel n = (Nat.digits 10 n).map Nat.digitChar := by
  intro fuel
  induction fuel with
  | zero =>
    intro n hn
    interval_cases n
    simp [jsNatReprAux]
  | succ f ih =>
    intro n hn
    match n with
    | 0 => simp [jsNatReprAux]
    | m + 1 =>
      rw [Nat.digits_def' (by norm_num : (1:Nat) < 10) (Nat.succ_pos m), List.map_cons]
      simp only [jsNatReprAux]
      have hdiv : (m + 1) / 10 ≤ f := by
        have := Nat.div_lt_self (Nat.succ_pos m) (by norm_num : 1 < 10)
        omega
      rw [ih _ hdiv]

theorem digitChar_injOn {a b : Nat} (ha : a < 10) (hb : b < 10)
    (h : Nat.digitChar a = Nat.digitChar b) : a = b := by
  interval_cases a <;> interval_cases b <;> revert h <;> decide

theorem digitChar_ne_dash {a : Nat} (ha : a < 10) : Nat.digitChar a ≠ '-' := by
  interval_cases a <;> decide

theorem map_digitChar_injOn : ∀ {l1 l2 : List Nat}, (∀ a ∈ l1, a < 10) →
    (∀ a ∈ l2, a < 10) → l1.map Nat.digitChar = l2.map Nat.digitChar → l1 = l2 := by
  intro l1
  induction l1 with
  | nil =>
    intro l2 _ _ h
    cases l2 <;> simp_all
  | cons a l ih =>
    intro l2 h1 h2 h
    cases l2 with
    | nil => simp at h
    | cons b l2' =>
      simp only [List.map_cons, List.cons.injEq] at h
      have ha : a < 10 := h1 a (List.mem_cons_self a l)
      have hb : b < 10 := h2 b (List.mem_cons_self b l2')
      cases digitChar_injOn ha hb h.1
      rw [ih (fun x hx => h1 x (List.mem_cons_of_mem _ hx))
        (fun x hx => h2 x (List.mem_cons_of_mem _ hx)) h.2]

theorem jsNatRepr_eq_digits (n : Nat) (hn : n ≠ 0) :
    jsNatRepr n = String.mk ((Nat.digits 10 n).map Nat.digitChar).reverse := by
  rw [jsNatRepr, if_neg hn, jsNatReprAux_eq_digits n n le_rfl]

theorem jsNatRepr_ne_zero_digits (n : Nat) (hn : n ≠ 0) : jsNatRepr n ≠ "0" := by
  intro h
  rw [jsNatRepr_eq_digits n hn] at h
  have hd : ((Nat.digits 10 n).map Nat.digitChar).reverse = ['0'] := congrArg String.data h
  have hmap : (Nat.digits 10 n).map Nat.digitChar = ['0'] := by
    rw [← List.reverse_reverse ((Nat.digits 10 n).map Nat.digitChar), hd]
    rfl
  cases hdig : Nat.digits 10 n with
  | nil => exact (Nat.digits_ne_nil_iff_ne_zero.mpr hn) hdig
  | cons d tl =>
    rw [hdig, List.map_cons, List.cons.injEq, List.map_eq_nil_iff] at hmap
    have hd10 : d < 10 := Nat.digits_lt_base (by norm_num)
      (by rw [hdig]; exact List.mem_cons_self d tl)
    have hd0 : d = 0 := digitChar_injOn hd10 (by norm_num)
      (by rw [hmap.1]; decide)
    have := Nat.ofDigits_digits 10 n
    rw [hdig, hmap.2, hd0] at this
    simp [Nat.ofDigits] at this
    exact hn this.symm

theorem jsNatRepr_injective : Function.Injective jsNatRepr := by
  intro m n h
  by_cases hm : m = 0 <;> by_cases hn : n = 0
  · omega
  · exact absurd ((jsNatRepr_ne_zero_digits n hn) (by rw [← h, hm]; rfl)) (fun hf => hf)
  · exact absurd ((jsNatRepr_ne_zero_digits m hm) (by rw [h, hn]; rfl)) (fun hf => hf)
  · rw [jsNatRepr_eq_digits m hm, jsNatRepr_eq_digits n hn] at h
    have hd : ((Nat.digits 10 m).map Nat.digitChar).reverse =
        ((Nat.digits 10 n).map Nat.digitChar).reverse := congrArg String.data h
    have hmap := List.reverse_injective hd
    have := map_digitChar_injOn
      (fun a ha => Nat.digits_lt_base (by norm_num) ha)
      (fun a ha => Nat.digits_lt_base (by norm_num) ha) hmap
    exact Nat.digits_inj_iff.mp this

theorem jsNatRepr_head_ne_dash (n : Nat) :
    ∃ c cs, (jsNatRepr n).data = c :: cs ∧ c ≠ '-' := by
  by_cases hn : n = 0
  · subst hn
    exact ⟨'0', [], rfl, by decide⟩
  · rw [jsNatRepr_eq_digits n hn]
    cases hrev : ((Nat.digits 10 n).map Nat.digitChar).reverse with
    | nil =>
      exfalso
      have : (Nat.digits 10 n).map Nat.digitChar = [] := by
        rw [← List.reverse_reverse ((Nat.digits 10 n).map Nat.digitChar), hrev]
        rfl
      rw [List.map_eq_nil_iff] at this
      exact (Nat.digits_ne_nil_iff_ne_zero.mpr hn) this
    | cons c cs =>
      refine ⟨c, cs, rfl, ?_⟩
      have hc : c ∈ (Nat.digits 10 n).map Nat.digitChar := by
        rw [← List.mem_reverse, hrev]
        exact List.mem_cons_self c cs
      obtain ⟨d, hd, hdc⟩ := List.mem_map.mp hc
      rw [← hdc]
      exact digitChar_ne_dash (Nat.digits_lt_base (by norm_num) hd)

theorem jsIntRepr_injective : Function.Injective jsIntRepr := by
  intro i j h
  unfold jsIntRepr at h
  by_cases hi : i < 0 <;> by_cases hj : j < 0 <;> simp only [hi, hj, if_true, if_false,
    if_pos, if_neg, not_false_iff] at h
  · have hd := congrArg String.data h
    simp only [String.data_append] at hd
    rw [List.singleton_append, List.singleton_append] at hd
    have hdata : (jsNatRepr i.natAbs).data = (jsNatRepr j.natAbs).data :=
      (List.cons.injEq _ _ _ _ ▸ hd).2
    have := jsNatRepr_injective (String.ext hdata)
    omega
  · exfalso
    obtain ⟨c, cs, hc, hcne⟩ := jsNatRepr_head_ne_dash j.natAbs
    have hd := congrArg String.data h
    simp only [String.data_append] at hd
    rw [List.singleton_append, hc] at hd
    exact hcne ((List.cons.injEq _ _ _ _ ▸ hd).1).symm
  · exfalso
    obtain ⟨c, cs, hc, hcne⟩ := jsNatRepr_head_ne_dash i.natAbs
    have hd := congrArg String.data h
    simp only [String.data_append] at hd
    rw [List.singleton_append, hc] at hd
    exact hcne (List.cons.injEq _ _ _ _ ▸ hd).1
  · have := jsNatRepr_injective h
    omega

/-! ## String concatenation lemmas -/

theorem str_append_cancel_left {a b c : String} (h : a ++ b = a ++ c) : b = c := by
  apply String.ext
  have hd := congrArg String.data h
  simp only [String.data_append] at hd
  exact List.append_cancel_left hd

theorem str_append_cancel_right {a b c : String} (h : a ++ c = b ++ c) : a = b := by
  apply String.ext
  have hd := congrArg String.data h
  simp only [String.data_append] at hd
  exact List.append_cancel_right hd

/-! ## Serialisation difference lemmas -/

theorem joinComma_cons_cons (s p : String) (rest : List String) :
    joinComma (s :: p :: rest) = s ++ "," ++ joinComma (p :: rest) := rfl

theorem joinComma_middle_ne : ∀ (pre : List String) {s t : String} (post : List String),
    s ≠ t → joinComma (pre ++ s :: post) ≠ joinComma (pre ++ t :: post) := by
  intro pre
  induction pre with
  | nil =>
    intro s t post hst h
    cases post with
    | nil => exact hst h
    | cons p ps =>
      rw [List.nil_append, List.nil_append, joinComma_cons_cons, joinComma_cons_cons] at h
      exact hst (str_append_cancel_right (str_append_cancel_right h))
  | cons p pre ih =>
    intro s t post hst h
    have h' : joinComma (pre ++ s :: post) = joinComma (pre ++ t :: post) := by
      cases pre with
      | nil =>
        simp only [List.cons_append, List.nil_append] at h
        rw [joinComma_cons_cons, joinComma_cons_cons] at h
        simpa using str_append_cancel_left h
      | cons q qs =>
        simp only [List.cons_append] at h ⊢
        rw [joinComma_cons_cons, joinComma_cons_cons] at h
        exact str_append_cancel_left h
    exact ih post hst h'

theorem jsonTx_amount_ne {s r : Option String} {ts : Nat} {a b : Int} (hab : a ≠ b) :
    jsonTx ⟨s, r, a, ts⟩ ≠ jsonTx ⟨s, r, b, ts⟩ := by
  intro h
  apply hab
  apply jsIntRepr_injective
  apply String.ext
  have hd := congrArg String.data h
  simp only [jsonTx, String.data_append, List.append_assoc,
    List.append_cancel_left_eq, List.append_cancel_right_eq] at hd
  exact hd

theorem jsonTxs_set_ne {ts : List Transaction} {j : Nat} {cur t' : Transaction}
    (hj : ts[j]? = some cur) (hne : jsonTx t' ≠ jsonTx cur) :
    jsonTxs (ts.set j t') ≠ jsonTxs ts := by
  intro h
  have hjlen : j < ts.length := by
    by_contra hle
    rw [List.getElem?_eq_none (by omega)] at hj
    cases hj
  have hjget : ts[j] = cur := by
    rw [List.getElem?_eq_getElem hjlen] at hj
    exact Option.some.inj hj
  have hset : ts.set j t' = ts.take j ++ t' :: ts.drop (j + 1) := by
    rw [List.set_eq_take_append_cons_drop, if_pos hjlen]
  have hts : ts = ts.take j ++ cur :: ts.drop (j + 1) := by
    conv_lhs => rw [← List.take_append_drop j ts, List.drop_eq_getElem_cons hjlen]
    rw [hjget]
  rw [hset] at h
  conv at h => rhs; rw [hts]
  unfold jsonTxs at h
  rw [List.map_append, List.map_cons, List.map_append, List.map_cons] at h
  have h2 := str_append_cancel_left (str_append_cancel_right h)
  exact joinComma_middle_ne ((ts.take j).map jsonTx) ((ts.drop (j + 1)).map jsonTx) hne h2

theorem hashInputFields_txs_ne {index timestamp : Nat} {ph : String} {nonce : Nat}
    {ts1 ts2 : List Transaction} (h : jsonTxs ts1 ≠ jsonTxs ts2) :
    hashInputFields index timestamp ts1 ph nonce ≠
      hashInputFields index timestamp ts2 ph nonce := by
  intro he
  apply h
  unfold hashInputFields at he
  exact str_append_cancel_left (str_append_cancel_right (str_append_cancel_right he))

/-! ## Validation scan lemmas -/

theorem scanChain_cons (hashFn : String → String) (prev cur : Block)
    (rest : List Block) (i : Nat) :
    scanChain hashFn prev (cur :: rest) i =
      if cur.hash ≠ cur.calculateHash hashFn then some (i, CorruptReason.hashMismatch)
      else if cur.previousHash ≠ prev.hash then some (i, CorruptReason.brokenLink)
      else scanChain hashFn cur rest (i + 1) := rfl

theorem scanChain_eq_none_iff (hashFn : String → String) :
    ∀ (l : List Block) (prev : Block) (i : Nat),
      scanChain hashFn prev l i = none ↔
        ∀ (k : Nat) (cur pb : Block), l[k]? = some cur → (prev :: l)[k]? = some pb →
          cur.hash = cur.calculateHash hashFn ∧ cur.previousHash = pb.hash := by
  intro l
  induction l with
  | nil =>
    intro prev i
    simp [scanChain]
  | cons c rest ih =>
    intro prev i
    rw [scanChain_cons]
    by_cases h1 : c.hash = c.calculateHash hashFn
    · by_cases h2 : c.previousHash = prev.hash
      · rw [if_neg (not_not_intro h1), if_neg (not_not_intro h2), ih c (i + 1)]
        constructor
        · intro h k cur pb hcur hpb
          cases k with
          | zero =>
            rw [List.getElem?_cons_zero] at hcur hpb
            cases Option.some.inj hcur
            cases Option.some.inj hpb
            exact ⟨h1, h2⟩
          | succ k =>
            simp only [List.getElem?_cons_succ] at hcur hpb
            exact h k cur pb hcur hpb
        · intro h k cur pb hcur hpb
          exact h (k + 1) cur pb (by simpa using hcur) (by simpa using hpb)
      · rw [if_neg (not_not_intro h1), if_pos h2]
        refine iff_of_false (by simp) ?_
        intro h
        exact h2 (h 0 c prev (by simp) (by simp)).2
    · rw [if_pos h1]
      refine iff_of_false (by simp) ?_
      intro h
      exact h1 (h 0 c prev (by simp) (by simp)).1

theorem scanChain_some_le (hashFn : String → String) :
    ∀ (l : List Block) (prev : Block) (i j : Nat) (r : CorruptReason),
      scanChain hashFn prev l i = some (j, r) → i ≤ j := by
  intro l
  induction l with
  | nil =>
    intro prev i j r h
    simp [scanChain] at h
  | cons c rest ih =>
    intro prev i j r h
    rw [scanChain_cons] at h
    split_ifs at h with h1 h2
    · obtain ⟨hj, _⟩ : i = j ∧ CorruptReason.hashMismatch = r := by simpa using h
      omega
    · obtain ⟨hj, _⟩ : i = j ∧ CorruptReason.brokenLink = r := by simpa using h
      omega
    · have := ih c (i + 1) j r h
      omega

theorem scanChain_some_take (hashFn : String → String) :
    ∀ (l : List Block) (prev : Block) (i j : Nat) (r : CorruptReason),
      scanChain hashFn prev l i = some (j, r) → ∀ ext,
        scanChain hashFn prev (l.take (j - i + 1) ++ ext) i = some (j, r) := by
  intro l
  induction l with
  | nil =>
    intro prev i j r h
    simp [scanChain] at h
  | cons c rest ih =>
    intro prev i j r h ext
    rw [scanChain_cons] at h
    split_ifs at h with h1 h2
    · obtain ⟨hj, hr⟩ : i = j ∧ CorruptReason.hashMismatch = r := by simpa using h
      subst hj
      rw [show i - i + 1 = 1 from by omega]
      rw [show (c :: rest).take 1 = [c] from rfl, List.singleton_append, scanChain_cons,
        if_pos h1, hr]
    · obtain ⟨hj, hr⟩ : i = j ∧ CorruptReason.brokenLink = r := by simpa using h
      subst hj
      rw [show i - i + 1 = 1 from by omega]
      rw [show (c :: rest).take 1 = [c] from rfl, List.singleton_append, scanChain_cons,
        if_neg h1, if_pos h2, hr]
    · have hij : i + 1 ≤ j := scanChain_some_le hashFn rest c (i + 1) j r h
      have htake : (c :: rest).take (j - i + 1) = c :: rest.take (j - (i + 1) + 1) := by
        rw [show j - i + 1 = (j - (i + 1) + 1) + 1 from by omega]
        rfl
      rw [htake, List.cons_append, scanChain_cons, if_neg h1, if_neg h2]
      exact ih c (i + 1) j r h ext

theorem scanChain_tamper (hashFn : String → String) :
    ∀ (l : List Block) (prev : Block) (i : Nat),
      scanChain hashFn prev l i = none →
      ∀ k (b' : Block), k < l.length → b'.hash ≠ b'.calculateHash hashFn →
        scanChain hashFn prev (l.set k b') i = some (i + k, CorruptReason.hashMismatch) := by
  intro l
  induction l with
  | nil =>
    intro prev i _ k b' hk
    simp at hk
  | cons c rest ih =>
    intro prev i h k b' hk hbad
    rw [scanChain_cons] at h
    split_ifs at h with h1 h2
    cases k with
    | zero =>
      rw [show (c :: rest).set 0 b' = b' :: rest from rfl, scanChain_cons, if_pos hbad]
      simp
    | succ k =>
      rw [show (c :: rest).set (k + 1) b' = c :: rest.set k b' from rfl, scanChain_cons,
        if_neg h1, if_neg h2]
      have h3 := ih c (i + 1) h k b'
        (by simp only [List.length_cons] at hk; omega) hbad
      rw [h3, show i + 1 + k = i + (k + 1) from by omega]

/-! ## The indexed loop agrees with the structural scan -/

theorem validateLoop_succ (hashFn : String → String) (i rem : Nat) (st : Blockchain) :
    validateLoop hashFn i (rem + 1) st =
      match st.chain[i]?, st.chain[i - 1]? with
      | some current, some previous =>
        if current.hash ≠ current.calculateHash hashFn then
          (some (i, CorruptReason.hashMismatch), st)
        else if current.previousHash ≠ previous.hash then
          (some (i, CorruptReason.brokenLink), st)
        else validateLoop hashFn (i + 1) rem st
      | _, _ => (none, st) := rfl

theorem validateLoop_succ_some (hashFn : String → String) (i rem : Nat)
    (st : Blockchain) (current previous : Block)
    (hc : st.chain[i]? = some current) (hp : st.chain[i - 1]? = some previous) :
    validateLoop hashFn i (rem + 1) st =
      if current.hash ≠ current.calculateHash hashFn then
        (some (i, CorruptReason.hashMismatch), st)
      else if current.previousHash ≠ previous.hash then
        (some (i, CorruptReason.brokenLink), st)
      else validateLoop hashFn (i + 1) rem st := by
  rw [validateLoop_succ, hc, hp]

theorem validateLoop_snd (hashFn : String → String) :
    ∀ (rem i : Nat) (st : Blockchain), (validateLoop hashFn i rem st).2 = st := by
  intro rem
  induction rem with
  | zero =>
    intro i st
    rfl
  | succ rem ih =>
    intro i st
    rw [validateLoop_succ]
    cases st.chain[i]? with
    | none => rfl
    | some current =>
      cases st.chain[i - 1]? with
      | none => rfl
      | some previous =>
        dsimp only
        split_ifs with h1 h2
        · rfl
        · rfl
        · exact ih (i + 1) st

theorem validateLoop_eq_scanChain (hashFn : String → String) :
    ∀ (rem i : Nat) (st : Blockchain) (prev : Block), 1 ≤ i →
      rem = st.chain.length - i → st.chain[i - 1]? = some prev →
      validateLoop hashFn i rem st = (scanChain hashFn prev (st.chain.drop i) i, st) := by
  intro rem
  induction rem with
  | zero =>
    intro i st prev hi hrem hprev
    rw [List.drop_eq_nil_of_le (by omega)]
    rfl
  | succ rem ih =>
    intro i st prev hi hrem hprev
    have hilt : i < st.chain.length := by omega
    rw [validateLoop_succ_some hashFn i rem st st.chain[i] prev
      (List.getElem?_eq_getElem hilt) hprev]
    rw [List.drop_eq_getElem_cons hilt, scanChain_cons]
    split_ifs with h1 h2
    · rfl
    · rfl
    · exact ih (i + 1) st st.chain[i] (by omega) (by omega)
        (by simp [List.getElem?_eq_getElem hilt])

theorem validateResult_eq_scanResult (hashFn : String → String) (bc : Blockchain) :
    bc.validateResult hashFn = scanResult hashFn bc := by
  unfold Blockchain.validateResult scanResult
  cases hch : bc.chain with
  | nil => rfl
  | cons g rest =>
    have h := validateLoop_eq_scanChain hashFn ((g :: rest).length - 1) 1 bc g le_rfl
      (by rw [hch]) (by rw [hch]; simp)
    rw [h, hch]
    rfl

/-! ## Mining loop lemmas -/

theorem mineLoop_zero (hashFn : String → String) (difficulty : Nat) (b : Block) :
    Block.mineLoop hashFn difficulty 0 b =
      if b.hash.take difficulty = mineTarget difficulty then some b else none := rfl

theorem mineLoop_succ (hashFn : String → String) (difficulty fuel : Nat) (b : Block) :
    Block.mineLoop hashFn difficulty (fuel + 1) b =
      if b.hash.take difficulty = mineTarget difficulty then some b
      else Block.mineLoop hashFn difficulty fuel (mineStep hashFn b) := rfl

theorem mineLoop_spec (hashFn : String → String) (difficulty : Nat) :
    ∀ (fuel : Nat) (b b' : Block), b.hash = b.calculateHash hashFn →
      Block.mineLoop hashFn difficulty fuel b = some b' →
      b'.index = b.index ∧ b'.timestamp = b.timestamp ∧
        b'.transactions = b.transactions ∧ b'.previousHash = b.previousHash ∧
        b.nonce ≤ b'.nonce ∧ b'.hash = b'.calculateHash hashFn ∧
        b'.hash.take difficulty = mineTarget difficulty ∧
        ∀ m, b.nonce ≤ m → m < b'.nonce → ¬ nonceOk hashFn difficulty b m := by
  intro fuel
  induction fuel with
  | zero =>
    intro b b' hinv h
    rw [mineLoop_zero] at h
    split_ifs at h with hc
    cases Option.some.inj h
    exact ⟨rfl, rfl, rfl, rfl, le_refl _, hinv, hc, fun m h1 h2 => absurd h1 (by omega)⟩
  | succ fuel ih =>
    intro b b' hinv h
    rw [mineLoop_succ] at h
    split_ifs at h with hc
    · cases Option.some.inj h
      exact ⟨rfl, rfl, rfl, rfl, le_refl _, hinv, hc, fun m h1 h2 => absurd h1 (by omega)⟩
    · have hstep_inv : (mineStep hashFn b).hash = (mineStep hashFn b).calculateHash hashFn := rfl
      obtain ⟨hi, ht, htx, hp, hn, hhash, hsat, hmin⟩ := ih (mineStep hashFn b) b' hstep_inv h
      have hnstep : (mineStep hashFn b).nonce = b.nonce + 1 := rfl
      refine ⟨hi, ht, htx, hp, by omega, hhash, hsat, ?_⟩
      intro m h1 h2
      by_cases hm : m = b.nonce
      · subst hm
        intro hok
        apply hc
        rw [hinv]
        exact hok
      · exact hmin m (by omega) h2

/-! ## Operation characterisations -/

theorem addTransaction_ok {bc bc' : Blockchain} {tx : Transaction}
    (h : bc.addTransaction tx = (none, bc')) :
    truthy tx.sender = true ∧ truthy tx.recipient = true ∧ 0 < tx.amount ∧
      bc' = { bc with pendingTransactions := bc.pendingTransactions ++ [tx] } := by
  unfold Blockchain.addTransaction at h
  split_ifs at h with hc
  · exact absurd (congrArg Prod.fst h) (by simp)
  · simp only [Bool.or_eq_true, Bool.not_eq_true', decide_eq_true_eq, not_or,
      Bool.not_eq_false] at hc
    obtain ⟨⟨hs, hr⟩, hle⟩ := hc
    exact ⟨hs, hr, by omega, ((Prod.mk.injEq _ _ _ _).mp h).2.symm⟩

theorem minePending_some {hashFn : String → String} {bc bc' : Blockchain}
    {fuel nowBlock nowReward : Nat} {minerAddress : String}
    (h : bc.minePendingTransactions hashFn fuel nowBlock nowReward minerAddress = some bc') :
    ∃ last mined, bc.getLastBlock = some last ∧
      Block.mineLoop hashFn bc.difficulty fuel
        (Block.new hashFn bc.chain.length nowBlock bc.pendingTransactions last.hash) =
        some mined ∧
      bc' = { bc with
              chain := bc.chain ++ [mined],
              pendingTransactions := [{ sender := none, recipient := some minerAddress,
                                        amount := bc.miningReward,
                                        timestamp := nowReward }] } := by
  unfold Blockchain.minePendingTransactions at h
  split at h
  · cases h
  · next last hlast =>
    split at h
    · cases h
    · next mined hm =>
      exact ⟨last, mined, hlast, hm, (Option.some.inj h).symm⟩

/-! ## Reachable-state invariants -/

theorem reachable_invariant {hashFn : String → String} {bc : Blockchain}
    (h : Reachable hashFn bc) :
    (∃ g rest, bc.chain = g :: rest ∧ g.index = 0 ∧ g.previousHash = "0" ∧
      g.transactions = []) ∧
    bc.miningReward = 100 ∧
    (∀ b ∈ bc.chain, ∀ t ∈ b.transactions, t.recipient ≠ none ∧ 0 < t.amount) ∧
    (∀ t ∈ bc.pendingTransactions, t.recipient ≠ none ∧ 0 < t.amount) := by
  induction h with
  | init now =>
    refine ⟨⟨Block.new hashFn 0 now [] "0", [], rfl, rfl, rfl, rfl⟩, rfl, ?_, ?_⟩
    · intro b hb t ht
      have hb' : b = Block.new hashFn 0 now [] "0" := by
        simpa [Blockchain.new] using hb
      rw [hb'] at ht
      simp [Block.new] at ht
    · intro t ht
      simp [Blockchain.new] at ht
  | addTx tx hr heq ih =>
    obtain ⟨hts, htr, hpos, hbc'⟩ := addTransaction_ok heq
    obtain ⟨hgen, hreward, hchain, hpend⟩ := ih
    subst hbc'
    refine ⟨hgen, hreward, hchain, ?_⟩
    intro t htmem
    rcases List.mem_append.mp htmem with hmem | hmem
    · exact hpend t hmem
    · have ht : t = tx := List.mem_singleton.mp hmem
      subst ht
      refine ⟨?_, hpos⟩
      intro hnone
      rw [hnone] at htr
      exact absurd htr (by simp [truthy])
  | mine fuel nowBlock nowReward addr hr heq ih =>
    obtain ⟨last, mined, hlast, hm, hbc'⟩ := minePending_some heq
    obtain ⟨hgen, hreward, hchain, hpend⟩ := ih
    have hminedtx := (mineLoop_spec hashFn _ fuel _ mined rfl hm).2.2.1
    subst hbc'
    obtain ⟨g, rest, hchain_eq, hg0, hgp, hgt⟩ := hgen
    refine ⟨⟨g, rest ++ [mined], by rw [hchain_eq, List.cons_append], hg0, hgp, hgt⟩,
      hreward, ?_, ?_⟩
    · intro b hb t ht
      rcases List.mem_append.mp hb with hb | hb
      · exact hchain b hb t ht
      · have hbm : b = mined := List.mem_singleton.mp hb
        subst hbm
        rw [hminedtx] at ht
        exact hpend t ht
    · intro t htm
      have ht : t = _ := List.mem_singleton.mp htm
      subst ht
      exact ⟨by simp, by rw [hreward]; norm_num⟩

/-! ## Balance lemmas -/

theorem txFold_eq (address : Option String) :
    ∀ (l : List Transaction) (acc : Int),
      l.foldl (fun balance tx =>
        let balance := if tx.sender = address then balance - tx.amount else balance
        if tx.recipient = address then balance + tx.amount else balance) acc =
      acc + (l.map (txContribution address)).sum := by
  intro l
  induction l with
  | nil =>
    intro acc
    simp
  | cons t l ih =>
    intro acc
    rw [List.foldl_cons, ih, List.map_cons, List.sum_cons]
    dsimp only
    unfold txContribution
    split_ifs <;> ring

theorem blockFold_eq (address : Option String) :
    ∀ (blocks : List Block) (acc : Int),
      blocks.foldl (fun balance block =>
        block.transactions.foldl (fun balance tx =>
          let balance := if tx.sender = address then balance - tx.amount else balance
          if tx.recipient = address then balance + tx.amount else balance) balance) acc =
      acc + ((blocks.flatMap (fun b => b.transactions)).map (txContribution address)).sum := by
  intro blocks
  induction blocks with
  | nil =>
    intro acc
    simp
  | cons b blocks ih =>
    intro acc
    rw [List.foldl_cons, txFold_eq address, ih, List.flatMap_cons, List.map_append,
      List.sum_append]
    ring

theorem getBalance_eq (bc : Blockchain) (address : Option String) :
    bc.getBalance address =
      ((bc.chain.flatMap (fun b => b.transactions)).map (txContribution address)).sum := by
  unfold Blockchain.getBalance
  rw [blockFold_eq address bc.chain 0]
  simp

theorem sum_contrib_split (address : Option String) (l : List Transaction) :
    (l.map (txContribution address)).sum =
      ((l.filter (fun t => decide (t.recipient = address))).map (fun t => t.amount)).sum -
      ((l.filter (fun t => decide (t.sender = address))).map (fun t => t.amount)).sum := by
  induction l with
  | nil => simp
  | cons t l ih =>
    simp only [List.map_cons, List.sum_cons, List.filter_cons]
    by_cases h1 : t.recipient = address <;> by_cases h2 : t.sender = address <;>
      simp [h1, h2, ih, txContribution] <;> ring

theorem sum_amounts_pos : ∀ {l : List Transaction}, l ≠ [] → (∀ t ∈ l, 0 < t.amount) →
    0 < (l.map (fun t => t.amount)).sum := by
  intro l
  induction l with
  | nil =>
    intro h _
    exact absurd rfl h
  | cons t l ih =>
    intro _ hpos
    rw [List.map_cons, List.sum_cons]
    cases l with
    | nil => simpa using hpos t (List.mem_cons_self _ _)
    | cons u l' =>
      have hrest := ih (by simp) (fun x hx => hpos x (List.mem_cons_of_mem _ hx))
      have ht := hpos t (List.mem_cons_self _ _)
      omega

theorem truthy_false_iff (o : Option String) :
    truthy o = false ↔ o = none ∨ o = some "" := by
  cases o with
  | none => simp [truthy]
  | some s => simp [truthy]

/-! ## Claim theorems -/

/-- C1: `validateChain()` returns `true` iff every block from index 1 to the
end has its stored hash equal to the hash recomputed from its current fields
and its `previousHash` equal to the previous block's stored hash.  On a
failure the reported result carries the failing index and the outcome is
already determined by the chain up to that block: replacing everything after
the first failing block changes nothing (the loop returned without examining
it).  The genesis block's own hash is never re-checked: the equivalence
quantifies only over `i ≥ 1`. -/
theorem C1_validateChain_spec (hashFn : String → String) (bc : Blockchain) :
    (bc.validateChain hashFn = true ↔
      ∀ (i : Nat) (cur prev : Block), 1 ≤ i → bc.chain[i]? = some cur →
        bc.chain[i - 1]? = some prev →
        cur.hash = cur.calculateHash hashFn ∧ cur.previousHash = prev.hash) ∧
    (∀ (j : Nat) (r : CorruptReason), bc.validateResult hashFn = some (j, r) →
      bc.validateChain hashFn = false ∧
      ∀ ext, Blockchain.validateResult
        { bc with chain := bc.chain.take (j + 1) ++ ext } hashFn = some (j, r)) := by
  unfold Blockchain.validateChain
  rw [validateResult_eq_scanResult]
  cases hch : bc.chain with
  | nil =>
    have hsr : scanResult hashFn bc = none := by
      unfold scanResult
      rw [hch]
    rw [hsr]
    constructor
    · refine iff_of_true rfl ?_
      intro i cur prev _ hcur _
      simp at hcur
    · intro j r hres
      cases hres
  | cons g rest =>
    have hsr : scanResult hashFn bc = scanChain hashFn g rest 1 := by
      unfold scanResult
      rw [hch]
    rw [hsr]
    constructor
    · rw [Option.isNone_iff_eq_none, scanChain_eq_none_iff]
      constructor
      · intro h i cur prev hi hcur hprev
        obtain ⟨k, rfl⟩ : ∃ k, i = k + 1 := ⟨i - 1, by omega⟩
        rw [List.getElem?_cons_succ] at hcur
        rw [show k + 1 - 1 = k from by omega] at hprev
        exact h k cur prev hcur hprev
      · intro h k cur pb hcur hpb
        refine h (k + 1) cur pb (by omega) ?_ ?_
        · rw [List.getElem?_cons_succ]
          exact hcur
        · rw [show k + 1 - 1 = k from by omega]
          exact hpb
    · intro j r hres
      have hj : 1 ≤ j := scanChain_some_le hashFn rest g 1 j r hres
      refine ⟨by rw [hres]; rfl, ?_⟩
      intro ext
      rw [validateResult_eq_scanResult]
      unfold scanResult
      rw [show List.take (j + 1) (g :: rest) ++ ext = g :: (rest.take j ++ ext) from by
        rw [List.take_succ_cons, List.cons_append]]
      have hscan2 := scanChain_some_take hashFn rest g 1 j r hres ext
      rw [show j - 1 + 1 = j from by omega] at hscan2
      exact hscan2

/-- Witness for C1: a concrete chain whose block 1 has a corrupted stored
hash; validation fails there, and truncating the chain right after the
failing block (discarding the block behind it) reports the same failure. -/
theorem C1_witness :
    bcBadWit.validateChain id = false ∧
    Blockchain.validateResult
      { bcBadWit with chain := bcBadWit.chain.take 2 ++ [] } id =
      some (1, CorruptReason.hashMismatch) := by
  have h := (C1_validateChain_spec id bcBadWit).2 1 CorruptReason.hashMismatch (by decide)
  exact ⟨h.1, h.2 []⟩

/-- C2 (amended): for every block whose stored `hash` equals
`calculateHash()` of its current fields — the state the `Block` constructor
establishes and mining preserves — if `mineBlock(d)` returns, the first `d`
characters of `block.hash` are `'0'` and `block.hash` equals the hash
recomputed from the block's current fields. -/
theorem C2_mine_postcondition {hashFn : String → String} {difficulty fuel : Nat}
    {b b' : Block} (hinv : b.hash = b.calculateHash hashFn)
    (h : Block.mineLoop hashFn difficulty fuel b = some b') :
    b'.hash.take difficulty = mineTarget difficulty ∧
    b'.hash = b'.calculateHash hashFn := by
  have hs := mineLoop_spec hashFn difficulty fuel b b' hinv h
  exact ⟨hs.2.2.2.2.2.2.1, hs.2.2.2.2.2.1⟩

/-- Counterexample for C2 as stated: a block whose transactions were mutated
after construction has a stale stored hash; at difficulty 0 the mining loop
returns immediately, and the returned block violates the claimed
postcondition `block.hash = calculateHash(current fields)`. -/
theorem C2_counterexample :
    Block.mineLoop id 0 1 tamperedWit = some tamperedWit ∧
    tamperedWit.hash ≠ Block.calculateHash id tamperedWit := by
  decide

/-- Witness for C2: a freshly constructed block under the constant digest
`"0000"` satisfies the entry invariant, mining at difficulty 4 returns, and
both postconditions hold. -/
theorem C2_witness :
    minedWit.hash.take 4 = mineTarget 4 ∧
    minedWit.hash = minedWit.calculateHash (constHash "0000") :=
  C2_mine_postcondition rfl
    (show Block.mineLoop (constHash "0000") 4 0 minedWit = some minedWit by decide)

/-- C9: starting from the constructor state (`nonce = 0`,
`hash = calculateHash()`), when `mineBlock(d)` returns the final nonce is
the least `n` whose digest over the block's other fields meets the
difficulty; in particular, if nonce 0 already satisfies it, the nonce is
never incremented. -/
theorem C9_nonce_minimal {hashFn : String → String} {difficulty fuel : Nat}
    {b b' : Block} (h0 : b.nonce = 0) (hinv : b.hash = b.calculateHash hashFn)
    (h : Block.mineLoop hashFn difficulty fuel b = some b') :
    nonceOk hashFn difficulty b b'.nonce ∧
    (∀ m < b'.nonce, ¬ nonceOk hashFn difficulty b m) ∧
    (nonceOk hashFn difficulty b 0 → b'.nonce = 0) := by
  obtain ⟨hi, ht, htx, hp, hn, hhash, hsat, hmin⟩ :=
    mineLoop_spec hashFn difficulty fuel b b' hinv h
  have hOk : nonceOk hashFn difficulty b b'.nonce := by
    unfold nonceOk
    have hcalc : Block.calculateHash hashFn { b with nonce := b'.nonce } =
        Block.calculateHash hashFn b' := by
      unfold Block.calculateHash
      dsimp only
      rw [hi, ht, htx, hp]
    rw [hcalc, ← hhash]
    exact hsat
  refine ⟨hOk, ?_, ?_⟩
  · intro m hm
    exact hmin m (by omega) hm
  · intro h0ok
    by_contra hne
    exact hmin 0 (by omega) (by omega) h0ok

/-- Witness for C9: the constructed block `minedWit` satisfies the entry
invariant, mining returns it unchanged, and its nonce (0) is minimal. -/
theorem C9_witness :
    nonceOk (constHash "0000") 4 minedWit minedWit.nonce ∧
    (∀ m < minedWit.nonce, ¬ nonceOk (constHash "0000") 4 minedWit m) ∧
    (nonceOk (constHash "0000") 4 minedWit 0 → minedWit.nonce = 0) :=
  C9_nonce_minimal rfl rfl
    (show Block.mineLoop (constHash "0000") 4 0 minedWit = some minedWit by decide)

/-- C3: on a chain that validates, replacing the amount of transaction `j`
of non-genesis block `i` by a different value — while leaving that block's
stored hash untouched — makes `validateChain()` return `false`, and the
reported failure is a hash mismatch at exactly index `i`.  Collision
resistance of SHA-256 is modelled by requiring the abstract digest function
to be injective. -/
theorem C3_tamper_detection {hashFn : String → String}
    (hinj : Function.Injective hashFn) {bc : Blockchain}
    (hvalid : bc.validateChain hashFn = true) {i j : Nat} {b : Block}
    {t : Transaction} {a : Int} (hi : 1 ≤ i) (hb : bc.chain[i]? = some b)
    (ht : b.transactions[j]? = some t) (ha : a ≠ t.amount) :
    (bc.setTxAmount i j a).validateChain hashFn = false ∧
    (bc.setTxAmount i j a).validateResult hashFn =
      some (i, CorruptReason.hashMismatch) := by
  cases hch : bc.chain with
  | nil =>
    rw [hch] at hb
    simp at hb
  | cons g rest =>
    obtain ⟨k, rfl⟩ : ∃ k, i = k + 1 := ⟨i - 1, by omega⟩
    have hchElem : bc.chain[k + 1]? = some b := hb
    rw [hch, List.getElem?_cons_succ] at hb
    have hklen : k < rest.length := by
      by_contra hk
      rw [List.getElem?_eq_none (by omega)] at hb
      cases hb
    have hscan : scanChain hashFn g rest 1 = none := by
      have hv := hvalid
      unfold Blockchain.validateChain at hv
      rw [validateResult_eq_scanResult] at hv
      unfold scanResult at hv
      rw [hch] at hv
      exact Option.isNone_iff_eq_none.mp hv
    have hbhash : b.hash = b.calculateHash hashFn := by
      have hklt : k < (g :: rest).length := by
        simp only [List.length_cons]
        omega
      exact ((scanChain_eq_none_iff hashFn rest g 1).mp hscan k b ((g :: rest).get ⟨k, hklt⟩)
        hb (List.getElem?_eq_getElem hklt)).1
    set t2 : Transaction := { t with amount := a } with ht2def
    set b2 : Block := { b with transactions := b.transactions.set j t2 } with hb2def
    have hjson : jsonTx t2 ≠ jsonTx t := jsonTx_amount_ne ha
    have htxs : jsonTxs (b.transactions.set j t2) ≠ jsonTxs b.transactions :=
      jsonTxs_set_ne ht hjson
    have hinput : hashInputFields b.index b.timestamp (b.transactions.set j t2)
        b.previousHash b.nonce ≠
        hashInputFields b.index b.timestamp b.transactions b.previousHash b.nonce :=
      hashInputFields_txs_ne htxs
    have hbad : b2.hash ≠ Block.calculateHash hashFn b2 := by
      intro hEq
      exact hinput (hinj (hEq.symm.trans hbhash))
    have hset : bc.setTxAmount (k + 1) j a = { bc with chain := (g :: rest).set (k + 1) b2 } := by
      simp only [Blockchain.setTxAmount, hch, List.getElem?_cons_succ, hb, ht]
    have hres : (bc.setTxAmount (k + 1) j a).validateResult hashFn =
        some (k + 1, CorruptReason.hashMismatch) := by
      rw [hset, validateResult_eq_scanResult]
      unfold scanResult
      rw [show (g :: rest).set (k + 1) b2 = g :: rest.set k b2 from rfl]
      dsimp only
      have htam := scanChain_tamper hashFn rest g 1 hscan k b2 hklen hbad
      rw [htam, show 1 + k = k + 1 from by omega]
    refine ⟨?_, hres⟩
    unfold Blockchain.validateChain
    rw [hres]
    rfl

/-- Witness for C3: tampering with the single transaction of block 1 of a
concrete valid two-block chain (changing its amount from 50 to 100) breaks
validation with a hash mismatch reported at index 1. -/
theorem C3_witness :
    (bcValidWit.setTxAmount 1 0 100).validateChain id = false ∧
    (bcValidWit.setTxAmount 1 0 100).validateResult id =
      some (1, CorruptReason.hashMismatch) :=
  C3_tamper_detection (fun _ _ hxy => hxy) (by decide) (le_refl 1)
    (show bcValidWit.chain[1]? = some blockWit by decide)
    (show blockWit.transactions[0]? = some txWit by decide) (by decide)

/-- C4: when `minePendingTransactions(M)` returns, the appended block holds
exactly the transactions that were pending before the call (so no reward for
this call), the pool is reset to the single reward transaction
`(null, M, miningReward)`, and any later successful call seals exactly that
reward into the next mined block. -/
theorem C4_reward_timing {hashFn : String → String} {bc bc' : Blockchain}
    {fuel nowBlock nowReward : Nat} {M : String}
    (h : bc.minePendingTransactions hashFn fuel nowBlock nowReward M = some bc') :
    (∃ mined, bc'.chain = bc.chain ++ [mined] ∧
      mined.transactions = bc.pendingTransactions) ∧
    bc'.pendingTransactions =
      [{ sender := none, recipient := some M, amount := bc.miningReward,
         timestamp := nowReward }] ∧
    (∀ (bc'' : Blockchain) (fuel2 nb2 nr2 : Nat) (M2 : String),
      bc'.minePendingTransactions hashFn fuel2 nb2 nr2 M2 = some bc'' →
      ∃ mined2, bc''.chain = bc'.chain ++ [mined2] ∧
        mined2.transactions =
          [{ sender := none, recipient := some M, amount := bc.miningReward,
             timestamp := nowReward }]) := by
  obtain ⟨last, mined, hlast, hm, hbc'⟩ := minePending_some h
  have htx := (mineLoop_spec hashFn _ fuel _ mined rfl hm).2.2.1
  subst hbc'
  refine ⟨⟨mined, rfl, htx⟩, rfl, ?_⟩
  intro bc'' fuel2 nb2 nr2 M2 h2
  obtain ⟨last2, mined2, hlast2, hm2, hbc''⟩ := minePending_some h2
  have htx2 := (mineLoop_spec hashFn _ fuel2 _ mined2 rfl hm2).2.2.1
  subst hbc''
  exact ⟨mined2, rfl, htx2⟩

/-- Witness for C4: mining the fresh ledger `bcMineA` for `"M"` appends a
block holding the (empty) prior pool, then a second call seals the reward
`(null, "M", 100)` into the next block. -/
theorem C4_witness :
    (∃ mined, bcMineB.chain = bcMineA.chain ++ [mined] ∧
      mined.transactions = bcMineA.pendingTransactions) ∧
    (∃ mined2, bcMineC.chain = bcMineB.chain ++ [mined2] ∧
      mined2.transactions = [⟨none, some "M", (100 : Int), 2⟩]) := by
  have h := C4_reward_timing
    (show bcMineA.minePendingTransactions (constHash "0000") 0 1 2 "M" = some bcMineB
      by decide)
  exact ⟨h.1, h.2.2 bcMineC 0 3 4 "M2"
    (show bcMineB.minePendingTransactions (constHash "0000") 0 3 4 "M2" = some bcMineC
      by decide)⟩

/-- C5 (amended): `addTransaction` raises the invalid-transaction error
exactly when the sender is `null` **or the empty string**, the recipient is
`null` **or the empty string** (JavaScript truthiness `!tx.sender` /
`!tx.recipient` rejects both), or the amount is non-positive; on error the
pool is unchanged, on success the transaction is appended at the end of the
pool (FIFO). -/
theorem C5_addTransaction_spec (bc : Blockchain) (tx : Transaction) :
    ((bc.addTransaction tx).1 ≠ none ↔
      tx.sender = none ∨ tx.sender = some "" ∨ tx.recipient = none ∨
        tx.recipient = some "" ∨ tx.amount ≤ 0) ∧
    ((bc.addTransaction tx).1 ≠ none → (bc.addTransaction tx).2 = bc) ∧
    ((bc.addTransaction tx).1 = none →
      (bc.addTransaction tx).2 =
        { bc with pendingTransactions := bc.pendingTransactions ++ [tx] }) := by
  refine ⟨?_, ?_, ?_⟩
  · unfold Blockchain.addTransaction
    split_ifs with hc
    · refine iff_of_true (by simp) ?_
      simp only [Bool.or_eq_true, Bool.not_eq_true', decide_eq_true_eq] at hc
      rcases hc with (hs | hr) | hle
      · rcases (truthy_false_iff _).mp hs with h | h
        · exact Or.inl h
        · exact Or.inr (Or.inl h)
      · rcases (truthy_false_iff _).mp hr with h | h
        · exact Or.inr (Or.inr (Or.inl h))
        · exact Or.inr (Or.inr (Or.inr (Or.inl h)))
      · exact Or.inr (Or.inr (Or.inr (Or.inr hle)))
    · refine iff_of_false (by simp) ?_
      intro hcon
      apply hc
      simp only [Bool.or_eq_true, Bool.not_eq_true', decide_eq_true_eq]
      rcases hcon with h | h | h | h | h
      · exact Or.inl (Or.inl ((truthy_false_iff _).mpr (Or.inl h)))
      · exact Or.inl (Or.inl ((truthy_false_iff _).mpr (Or.inr h)))
      · exact Or.inl (Or.inr ((truthy_false_iff _).mpr (Or.inl h)))
      · exact Or.inl (Or.inr ((truthy_false_iff _).mpr (Or.inr h)))
      · exact Or.inr h
  · intro h
    unfold Blockchain.addTransaction at h ⊢
    split_ifs at h ⊢ with hc
    · rfl
    · simp at h
  · intro h
    unfold Blockchain.addTransaction at h ⊢
    split_ifs at h ⊢ with hc
    rfl

/-- Counterexample for C5 as stated: a transaction whose sender is the empty
string (not `null`), with a non-null recipient and positive amount, is still
rejected — the claimed "exactly when recipient null, sender null, or amount
≤ 0" condition does not hold of it. -/
theorem C5_counterexample :
    txEmptySender.sender ≠ none ∧ txEmptySender.recipient ≠ none ∧
    0 < txEmptySender.amount ∧
    (bcPlain.addTransaction txEmptySender).1 ≠ none ∧
    (bcPlain.addTransaction txEmptySender).2 = bcPlain := by
  decide

/-- Witness for C5: a well-formed transaction is accepted and appended at
the end of the pool. -/
theorem C5_witness :
    (bcPlain.addTransaction txPlain).2 =
      { bcPlain with pendingTransactions := bcPlain.pendingTransactions ++ [txPlain] } :=
  (C5_addTransaction_spec bcPlain txPlain).2.2 (by decide)

/-- C6: `getBalance(a)` is the signed replay, starting from 0, of every
transaction in every block of the chain in order (`+amount` when the
recipient is `a`, `-amount` when the sender is `a`); pending transactions
contribute nothing (the result is unchanged by any pool contents); and no
lower bound is enforced — the result can be negative. -/
theorem C6_getBalance_spec (bc : Blockchain) (address : Option String) :
    bc.getBalance address =
      ((bc.chain.flatMap (fun b => b.transactions)).map
        (fun t => (if t.recipient = address then t.amount else 0) -
          (if t.sender = address then t.amount else 0))).sum ∧
    (∀ p, Blockchain.getBalance { bc with pendingTransactions := p } address =
      bc.getBalance address) ∧
    (∃ (bc' : Blockchain) (a : Option String), bc'.getBalance a < 0) := by
  refine ⟨?_, fun p => rfl, ?_⟩
  · have h := getBalance_eq bc address
    simpa [txContribution] using h
  · exact ⟨⟨[⟨0, 0, [⟨some "x", some "y", 5, 0⟩], "0", 0, "h"⟩], 4, [], 100⟩,
      some "x", by decide⟩

/-- C7: every state reachable from construction through the public
operations has a non-empty chain whose block 0 is the genesis block
(`index = 0`, `previousHash = "0"`, no transactions); and a freshly
constructed ledger, whose chain holds only the genesis block, validates as
`true`. -/
theorem C7_genesis_invariant {hashFn : String → String} {bc : Blockchain}
    (h : Reachable hashFn bc) :
    (∃ g rest, bc.chain = g :: rest ∧ g.index = 0 ∧ g.previousHash = "0" ∧
      g.transactions = []) ∧
    ∀ now, (Blockchain.new hashFn now).validateChain hashFn = true := by
  refine ⟨(reachable_invariant h).1, ?_⟩
  intro now
  unfold Blockchain.validateChain
  rw [validateResult_eq_scanResult]
  rfl

/-- Witness for C7: the freshly constructed ledger `bcPlain` is reachable,
its chain is the genesis singleton, and it validates as `true`. -/
theorem C7_witness :
    (∃ g rest, bcPlain.chain = g :: rest ∧ g.index = 0 ∧ g.previousHash = "0" ∧
      g.transactions = []) ∧
    (Blockchain.new (constHash "h") 0).validateChain (constHash "h") = true := by
  have h0 : Reachable (constHash "h") bcPlain := Reachable.init 0
  have h := C7_genesis_invariant h0
  exact ⟨h.1, h.2 0⟩

/-- C8: `validateChain()` never mutates the ledger: run as a state
transformer, the loop returns the state it was given — chain (with every
block's fields), pending pool, difficulty and mining reward are all
unchanged — and its Boolean component is exactly `validateChain`'s result. -/
theorem C8_validateChain_pure (hashFn : String → String) (bc : Blockchain) :
    (bc.validateChainOp hashFn).2.chain = bc.chain ∧
    (bc.validateChainOp hashFn).2.pendingTransactions = bc.pendingTransactions ∧
    (bc.validateChainOp hashFn).2.difficulty = bc.difficulty ∧
    (bc.validateChainOp hashFn).2.miningReward = bc.miningReward ∧
    (bc.validateChainOp hashFn).1 = bc.validateChain hashFn := by
  have h := validateLoop_snd hashFn (bc.chain.length - 1) 1 bc
  unfold Blockchain.validateChainOp
  rw [h]
  exact ⟨rfl, rfl, rfl, rfl, rfl⟩

/-- C10: `getBalance(null)` is the sum of the amounts of chain-committed
transactions whose recipient is `null` minus the sum of the amounts of the
chain-committed `sender = null` (reward) transactions; in any reachable
state that has committed at least one reward transaction, the result is
strictly negative. -/
theorem C10_null_balance (hashFn : String → String) (bc : Blockchain) :
    (bc.getBalance none =
      (((bc.chain.flatMap (fun b => b.transactions)).filter
          (fun t => decide (t.recipient = none))).map (fun t => t.amount)).sum -
      (((bc.chain.flatMap (fun b => b.transactions)).filter
          (fun t => decide (t.sender = none))).map (fun t => t.amount)).sum) ∧
    (Reachable hashFn bc →
      (∃ b ∈ bc.chain, ∃ t ∈ b.transactions, t.sender = none) →
      bc.getBalance none < 0) := by
  constructor
  · rw [getBalance_eq, sum_contrib_split]
  · intro hr hex
    obtain ⟨b, hb, t, ht, hts⟩ := hex
    obtain ⟨_, _, hchain, _⟩ := reachable_invariant hr
    rw [getBalance_eq, sum_contrib_split]
    have hrec : (bc.chain.flatMap (fun b => b.transactions)).filter
        (fun t => decide (t.recipient = none)) = [] := by
      rw [List.filter_eq_nil_iff]
      intro x hx
      simp only [decide_eq_true_eq]
      obtain ⟨bb, hbb, hxb⟩ := List.mem_flatMap.mp hx
      exact (hchain bb hbb x hxb).1
    rw [hrec]
    simp only [List.map_nil, List.sum_nil]
    have hmem : t ∈ (bc.chain.flatMap (fun b => b.transactions)).filter
        (fun t => decide (t.sender = none)) := by
      rw [List.mem_filter]
      exact ⟨List.mem_flatMap.mpr ⟨b, hb, ht⟩, by simp [hts]⟩
    have hpos_all : ∀ x ∈ (bc.chain.flatMap (fun b => b.transactions)).filter
        (fun t => decide (t.sender = none)), 0 < x.amount := by
      intro x hx
      obtain ⟨bb, hbb, hxb⟩ := List.mem_flatMap.mp (List.mem_filter.mp hx).1
      exact (hchain bb hbb x hxb).2
    have hpos := sum_amounts_pos (List.ne_nil_of_mem hmem) hpos_all
    omega

/-- Witness for C10: after the two concrete mining calls, the chain holds one
reward transaction, and the balance of `null` is negative. -/
theorem C10_witness : bcMineC.getBalance none < 0 := by
  have h0 : Reachable (constHash "0000") bcMineA := Reachable.init 0
  have h1 : Reachable (constHash "0000") bcMineB :=
    Reachable.mine 0 1 2 "M" h0 (by decide)
  have h2 : Reachable (constHash "0000") bcMineC :=
    Reachable.mine 0 3 4 "M2" h1 (by decide)
  exact (C10_null_balance (constHash "0000") bcMineC).2 h2
    ⟨minedRewardBlock, by decide, rewardM, by decide, rfl⟩
